import Mathlib

/-
Verification of the class-data archive construction pipeline extracted from
the HotSpot sources under src/hotspot/share/{cds,compiler,oops}.

The development shallowly embeds the functions that the claims are about:

  * MethodTrainingData::notice_compilation     (methodTrainingData.cpp)
  * ClassPrelinker::can_archive_resolved_klass (classPrelinker.cpp)
  * ClassPrelinker::can_archive_resolved_field (classPrelinker.cpp)
  * ClassPrelinker::dumptime_resolve_constants (classPrelinker.cpp)
  * ClassPrelinker::PreloadedKlassRecorder::maybe_record (classPrelinker.cpp)
  * DynamicArchiveBuilder::sort_methods        (dynamicArchive.cpp)
  * DynamicArchive::validate                   (dynamicArchive.cpp)

Heap-allocated records become entries of association lists, class identity
becomes a natural-number id, and the external collaborators the code calls
(subtype testing, field lookup, loader predicates) become fields of the
embedded class records, reflecting exactly the answers the code consumes.
The file is laid out with every definition first and every proof after.
-/

namespace JdkCds

/-! # Training record store (methodTrainingData.cpp)

A MethodTrainingData heap object holds a method-name key, a compile level
and an only-inlined flag.  The global table maps the name to the record.
-/

/-- One MethodTrainingData record: the compile level and the only-inlined
flag.  The name key is kept outside, in the table. -/
structure MTD where
  level : Int
  only_inlined : Bool
deriving DecidableEq, Repr

/-- CompLevel_simple from compilerDefinitions.hpp (C1, the unoptimized
client-compiler level). -/
def CompLevel_simple : Int := 1

/-- The tail of MethodTrainingData::notice_compilation, operating on the
record found or freshly created: clear only_inlined on a non-inlined
compile, then raise the level, except that CompLevel_simple forces the
level to CompLevel_simple. -/
def mtd_update (mtd : MTD) (level : Int) (inlined : Bool) : MTD :=
  let m1 := if mtd.only_inlined && !inlined then { mtd with only_inlined := false } else mtd
  if level = CompLevel_simple then { m1 with level := CompLevel_simple }
  else if level > m1.level then { m1 with level := level }
  else m1

/-- The method-training-data table: an association list from method name
(name_and_sig_as_C_string) to its record. -/
abbrev MTDTable := List (String × MTD)

/-- ResizeableResourceHashtable::get on the table. -/
def mtds_get (tbl : MTDTable) (n : String) : Option MTD :=
  match tbl with
  | [] => none
  | (k, v) :: t => if k = n then some v else mtds_get t n

/-- ResizeableResourceHashtable::put of a fresh record (key not present). -/
def mtds_put (tbl : MTDTable) (n : String) (m : MTD) : MTDTable :=
  tbl ++ [(n, m)]

/-- In-place mutation of the record a table entry points to. -/
def mtds_set (tbl : MTDTable) (n : String) (m : MTD) : MTDTable :=
  match tbl with
  | [] => []
  | (k, v) :: t => if k = n then (k, m) :: t else (k, v) :: mtds_set t n m

/-- MethodTrainingData::notice_compilation.  need_data() is the test
StoreProfiles != nullptr; when it is false the function returns at once.
Otherwise the record for the method is fetched (the MethodCounters cache
in the source caches the very pointer stored in the table, so the lookup
is semantically the table lookup) or created from (level, inlined), and
then the common update tail runs on it. -/
def notice_compilation (needData : Bool) (tbl : MTDTable) (name : String)
    (level : Int) (inlined : Bool) : MTDTable :=
  if !needData then tbl
  else
    match mtds_get tbl name with
    | none => mtds_put tbl name (mtd_update ⟨level, inlined⟩ level inlined)
    | some m => mtds_set tbl name (mtd_update m level inlined)

/-- A whole sequence of notice_compilation calls on one method. -/
def notice_run (needData : Bool) (tbl : MTDTable) (name : String)
    (calls : List (Int × Bool)) : MTDTable :=
  calls.foldl (fun t c => notice_compilation needData t name c.1 c.2) tbl

/-! # Class eligibility oracle (classPrelinker.cpp)

ClassPrelinker keeps four global tables of InstanceKlass keyed sets:
vm classes, preloaded classes, platform-initiated and app-initiated
classes.  Classes are identified by a natural-number id; the collaborator
predicates the code calls (is_subtype_of, class_loader, the shared-class
loader-kind flags, find_field) are recorded as fields of the class
records. -/

/-- A concrete runtime class loader (an oop in the source): the boot
loader is the null oop, and SystemDictionary exposes the platform and
system (app) loader identities. -/
inductive Loader where
  | bootL
  | platformL
  | systemL
  | customL (n : Nat)
deriving DecidableEq, Repr

/-- The view of an InstanceKlass consumed by the eligibility oracle:
identity, the hidden flag, the three shared-loader-kind predicates, the
concrete class loader, and the black-box answer set of is_subtype_of
(ids of all classes this class is a subtype of). -/
structure IKlass where
  kid : Nat
  hidden : Bool
  shared_boot : Bool
  shared_platform : Bool
  shared_app : Bool
  loader : Loader
  supertypes : List Nat
deriving DecidableEq, Repr

/-- A field descriptor as answered by Klass::find_field: name symbol,
signature symbol (both abstracted to ids) and the static access flag. -/
structure FieldD where
  fname : Nat
  fsig : Nat
  fstatic : Bool
deriving DecidableEq, Repr

/-- A resolved Klass: an instance class (is_instance_klass true) or not
(array classes and the like), plus the field list find_field answers
from. -/
structure RKlass where
  inst : Option IKlass
  rfields : List FieldD
deriving DecidableEq, Repr

/-- Klass::find_field by name and signature. -/
def find_field (k : RKlass) (n s : Nat) : Option FieldD :=
  k.rfields.find? (fun f => f.fname == n && f.fsig == s)

/-- The mutable ClassPrelinker state: the four ClassesTable sets, as id
lists in insertion order. -/
structure POracle where
  vm_classes : List Nat
  preloaded_classes : List Nat
  platform_initiated : List Nat
  app_initiated : List Nat
deriving DecidableEq, Repr

/-- ClassesTable::put_if_absent. -/
def put_if_absent (l : List Nat) (k : Nat) : List Nat :=
  if l.contains k then l else l ++ [k]

/-- ClassPrelinker::is_vm_class. -/
def is_vm_class (s : POracle) (ik : IKlass) : Bool :=
  s.vm_classes.contains ik.kid

/-- ClassPrelinker::is_preloaded_class. -/
def is_preloaded_class (s : POracle) (ik : IKlass) : Bool :=
  s.preloaded_classes.contains ik.kid

/-- Klass::is_subtype_of, answered from the recorded supertype ids. -/
def is_subtype_of (holder : IKlass) (ik : IKlass) : Bool :=
  holder.supertypes.contains ik.kid

/-- ClassPrelinker::can_archive_resolved_klass(InstanceKlass*, Klass*),
returning the decision together with the updated oracle state (the two
initiated-classes tables are its only side effects). -/
def can_archive_resolved_klass (s : POracle) (cp_holder : IKlass) (resolved : RKlass) :
    Bool × POracle :=
  if cp_holder.hidden then (false, s)
  else
    match resolved.inst with
    | some ik =>
      if is_subtype_of cp_holder ik then (true, s)
      else if is_vm_class s cp_holder then (is_vm_class s ik, s)
      else if is_preloaded_class s ik then
        if cp_holder.shared_platform then
          (true,
            if !(ik.loader = Loader.platformL) then
              { s with platform_initiated := put_if_absent s.platform_initiated ik.kid }
            else s)
        else if cp_holder.shared_app then
          (true,
            if !(ik.loader = Loader.systemL) then
              { s with app_initiated := put_if_absent s.app_initiated ik.kid }
            else s)
        else if cp_holder.shared_boot then (true, s)
        else (false, s)
      else (false, s)
    | none => (false, s)

/-- Whether a resolved Klass is a vm (well-known bootstrap) class: only
instance classes are in the _vm_classes table. -/
def klass_is_vm (s : POracle) (r : RKlass) : Bool :=
  match r.inst with
  | some ik => is_vm_class s ik
  | none => false

/-- Whether the holder is a subtype of a resolved Klass (the test the
oracle reaches only for instance classes). -/
def holder_subtype_of (h : IKlass) (r : RKlass) : Bool :=
  match r.inst with
  | some ik => is_subtype_of h ik
  | none => false

/-- A constant-pool entry as read by can_archive_resolved_field: a
resolved class entry (tag is_klass), an unresolved class name, a field
reference carrying the class-entry index and the name and signature
symbols (uncached_klass_ref_index_at, uncached_name_ref_at,
uncached_signature_ref_at), or anything else. -/
inductive CPE where
  | klassE (r : RKlass)
  | unresolvedE (cname : Nat)
  | fieldE (klass_index : Nat) (fname fsig : Nat)
  | otherE
deriving DecidableEq, Repr

/-- A constant pool with its pool_holder. -/
structure CPool where
  holder : IKlass
  entries : List CPE
deriving DecidableEq, Repr

/-- ClassPrelinker::can_archive_resolved_field.  The source asserts that
the entry at cp_index has a field tag; other shapes fall to false here.
It requires the class sub-entry to be resolved, the class reference to be
archivable, and the field to be found and non-static. -/
def can_archive_resolved_field (s : POracle) (cp : CPool) (cp_index : Nat) :
    Bool × POracle :=
  match cp.entries.get? cp_index with
  | some (CPE.fieldE klass_index n sig) =>
    match cp.entries.get? klass_index with
    | some (CPE.klassE k) =>
      let r := can_archive_resolved_klass s cp.holder k
      if !r.1 then (false, r.2)
      else
        match find_field k n sig with
        | none => (false, r.2)
        | some fd => if fd.fstatic then (false, r.2) else (true, r.2)
    | _ => (false, s)
  | _ => (false, s)

/-! # Constant-pool resolution pass (classPrelinker.cpp)

ClassPrelinker::dumptime_resolve_constants walks the constant pool of a
linked class once per run: _processed_classes is the per-run marker set;
JVM_CONSTANT_String entries are resolved (interned) when dumping the
static archive; JVM_CONSTANT_UnresolvedClass entries are currently left
alone (the maybe_resolve_class call is commented out). -/

/-- A constant-pool entry tag as seen by dumptime_resolve_constants. -/
inductive CPTag where
  | unresolvedClassT
  | stringT (resolved : Bool)
  | otherT
deriving DecidableEq, Repr

/-- The class view for the resolution pass: identity, linked state, and
its constant pool (index 0 of a real pool is unused; the list models the
entries from index 1 up). -/
structure RCKlass where
  kid : Nat
  linked : Bool
deriving DecidableEq, Repr

/-- State threaded through dumptime_resolve_constants calls: the
_processed_classes marker set, and every constant pool, keyed by the
owning class id. -/
structure PrelinkSt where
  processed : List Nat
  pools : List (Nat × List CPTag)
deriving DecidableEq, Repr

/-- ClassPrelinker::resolve_string on one entry: a no-op unless
DumpSharedSpaces (the archive heap is not supported for the dynamic
archive); otherwise the string becomes resolved/interned. -/
def resolve_entry (dumpShared : Bool) (t : CPTag) : CPTag :=
  match t with
  | CPTag.stringT _ => if dumpShared then CPTag.stringT true else t
  | CPTag.unresolvedClassT => t
  | CPTag.otherT => t

/-- The loop body over the whole pool. -/
def resolve_pool (dumpShared : Bool) (cp : List CPTag) : List CPTag :=
  cp.map (resolve_entry dumpShared)

/-- Functional update of the pool owned by a given class id. -/
def update_pool (pools : List (Nat × List CPTag)) (k : Nat)
    (f : List CPTag → List CPTag) : List (Nat × List CPTag) :=
  pools.map (fun p => if p.1 = k then (p.1, f p.2) else p)

/-- ClassPrelinker::dumptime_resolve_constants: return for unlinked
classes; mark the class in _processed_classes via put_if_absent and
return if it was already there; otherwise resolve the string entries of
its pool. -/
def dumptime_resolve_constants (dumpShared : Bool) (st : PrelinkSt) (ik : RCKlass) :
    PrelinkSt :=
  if !ik.linked then st
  else if st.processed.contains ik.kid then st
  else
    { processed := put_if_absent st.processed ik.kid
      pools := update_pool st.pools ik.kid (resolve_pool dumpShared) }

/-! # Dynamic archive validation (dynamicArchive.cpp)

DynamicArchive::validate compares the base-archive checksums recorded in
the dynamic archive header with the currently loaded base archive. -/

/-- The fields of DynamicArchiveHeader that validate reads. -/
structure DynHeader where
  base_header_crc : Int
  base_region_crc : Nat → Int

/-- The fields of the currently loaded base archive (FileMapInfo) that
validate reads. -/
structure BaseInfo where
  crc : Int
  region_crc : Nat → Int

/-- The region loop of DynamicArchive::validate, from index i upward to
n_regions, returning false at the first mismatching region. -/
def check_regions (d : DynHeader) (b : BaseInfo) (n_regions : Nat) (i : Nat) : Bool :=
  if h : i < n_regions then
    if d.base_region_crc i ≠ b.region_crc i then false
    else check_regions d b n_regions (i + 1)
  else true
termination_by n_regions - i

/-- DynamicArchive::validate: header crc first, then every region crc of
the base archive, in index order, false at the first mismatch. -/
def validate (n_regions : Nat) (d : DynHeader) (b : BaseInfo) : Bool :=
  if d.base_header_crc ≠ b.crc then false
  else check_regions d b n_regions 0

/-! # Method sorting during SORT_AND_RELAYOUT (dynamicArchive.cpp)

DynamicArchiveBuilder::sort_methods(InstanceKlass*) skips classes in the
base archive and classes already visited (null java_mirror is the visited
sentinel); for a processed class it always sorts the method tables, and
relayouts the vtable/itable only when the class is linked. -/

/-- The per-class facts the sort_methods body branches on. -/
structure SMKlass where
  in_shared : Bool
  mirror_present : Bool
  linked : Bool
deriving DecidableEq, Repr

/-- What sort_methods did to one class: whether Method::sort_methods ran
on its method tables, and whether initialize_vtable/initialize_itable
ran. -/
structure SMEffect where
  sorted : Bool
  tables : Bool
deriving DecidableEq, Repr

/-- The effect of DynamicArchiveBuilder::sort_methods(InstanceKlass*) on
the class itself: shared supertypes and already-visited classes are left
alone; otherwise the method tables are sorted unconditionally and the
dispatch tables are re-derived only when the class is linked. -/
def sort_methods_effect (ik : SMKlass) : SMEffect :=
  if ik.in_shared then ⟨false, false⟩
  else if !ik.mirror_present then ⟨false, false⟩
  else ⟨true, ik.linked⟩

/-! # Preload set builder (classPrelinker.cpp)

ClassPrelinker::PreloadedKlassRecorder::maybe_record walks, for one
(loader-category, sub-pass) pass, the hierarchy of every gathered
InstanceKlass: a per-pass seen set, a battery of skip conditions, depth
first recursion into the java_super and the local_interfaces, and an
append after the dependencies.  The class hierarchy is embedded as a
forest: each occurrence of a class carries its own super/interface
subtrees, and a coherence condition (equal ids give equal subtrees) says
the forest depicts one consistent class graph. -/

/-- The per-class facts maybe_record reads: identity, the vm-class flag
(membership in ClassPrelinker::_vm_classes), the hidden flag, whether the
module is java.base, the three shared-loader-kind predicates, whether the
class is already in a previously-finalized archive
(MetaspaceObj::is_shared), and the shared-classpath-entry facts
(in_named_module, is_modules_image). -/
structure CInfo where
  kid : Nat
  is_vm : Bool
  hidden : Bool
  is_java_base : Bool
  shared_boot : Bool
  shared_platform : Bool
  shared_app : Bool
  is_shared : Bool
  in_named_module : Bool
  is_modules_image : Bool
deriving DecidableEq, Repr

mutual
/-- A class with its superclass (if any) and directly-declared interface
subtrees. -/
inductive CTree where
  | node (info : CInfo) (sup : OTree) (intfs : LTree)
/-- The java_super slot: absent (only for java.lang.Object) or a class. -/
inductive OTree where
  | noneT
  | someT (t : CTree)
/-- The local_interfaces array. -/
inductive LTree where
  | nilT
  | consT (t : CTree) (ts : LTree)
end

deriving instance DecidableEq for CTree
deriving instance Repr for CTree

/-- The identity of the root class of a tree. -/
def kidOf : CTree → Nat
  | CTree.node i _ _ => i.kid

/-- The attributes of the root class of a tree. -/
def infoOf : CTree → CInfo
  | CTree.node i _ _ => i

mutual
/-- All classes reachable from a class through supers and interfaces,
the class itself included. -/
def subtreesC : CTree → List CTree
  | CTree.node i s l => CTree.node i s l :: (subtreesO s ++ subtreesL l)
def subtreesO : OTree → List CTree
  | OTree.noneT => []
  | OTree.someT t => subtreesC t
def subtreesL : LTree → List CTree
  | LTree.nilT => []
  | LTree.consT t ts => subtreesC t ++ subtreesL ts
end

/-- The ids of all classes reachable from a class. -/
def treeKids (t : CTree) : List Nat :=
  (subtreesC t).map kidOf

/-- The direct dependencies of a class: its superclass, then its
directly-declared interfaces, in the order maybe_record visits them. -/
def depsOf : CTree → List CTree
  | CTree.node _ s l =>
    (match s with | OTree.noneT => [] | OTree.someT t => [t]) ++ toListL l
where
  /-- The interface list as a plain list. -/
  toListL : LTree → List CTree
    | LTree.nilT => []
    | LTree.consT t ts => t :: toListL ts

/-- The superclass chain of a class (the class itself excluded). -/
def superChain : CTree → List CTree
  | CTree.node _ s _ =>
    match s with
    | OTree.noneT => []
    | OTree.someT t => t :: superChain t

/-- The loader category of one recorder pass (ClassLoader::BOOT_LOADER,
PLATFORM_LOADER or APP_LOADER). -/
inductive LType where
  | bootT
  | platformT
  | appT
deriving DecidableEq, Repr

/-- One (loader-category, sub-pass) pass: the _loader_type of the
recorder and the _record_java_base_only global. -/
structure Pass where
  ltype : LType
  record_java_base_only : Bool
deriving DecidableEq, Repr

/-- PreloadedKlassRecorder::loader_type_matches. -/
def loader_type_matches (p : Pass) (i : CInfo) : Bool :=
  match p.ltype with
  | LType.bootT => i.shared_boot
  | LType.platformT => i.shared_platform
  | LType.appT => i.shared_app

/-- The recorder state: the per-pass _seen_klasses set, the _list being
built (as ids; the source appends the buffered copy of the class, which
has the same identity), and the global _preloaded_classes set. -/
structure RecState where
  seen : List Nat
  listr : List Nat
  preloaded : List Nat
deriving DecidableEq, Repr

mutual
/-- PreloadedKlassRecorder::maybe_record: mark seen (return if already
seen), then the skip battery in source order (vm class; boot sub-pass
mismatch; hidden; loader-category mismatch; already shared; named-module
class not from the modules image), then recurse into the superclass and
the interfaces, then append the class. -/
def maybe_record (p : Pass) (st : RecState) : CTree → RecState
  | CTree.node info sup intfs =>
    if st.seen.contains info.kid then st
    else
      let st1 : RecState := { st with seen := st.seen ++ [info.kid] }
      if info.is_vm then st1
      else if p.ltype = LType.bootT && !(p.record_java_base_only == info.is_java_base) then st1
      else if info.hidden then st1
      else if !loader_type_matches p info then st1
      else if info.is_shared then st1
      else if info.in_named_module && !info.is_modules_image then st1
      else
        let st2 := maybe_record_sup p st1 sup
        let st3 := maybe_record_list p st2 intfs
        { st3 with
          listr := st3.listr ++ [info.kid]
          preloaded := put_if_absent st3.preloaded info.kid }
/-- The recursion into the java_super slot. -/
def maybe_record_sup (p : Pass) (st : RecState) : OTree → RecState
  | OTree.noneT => st
  | OTree.someT t => maybe_record p st t
/-- The recursion over the local_interfaces array (also the outer
iterate() loop over the gathered classes). -/
def maybe_record_list (p : Pass) (st : RecState) : LTree → RecState
  | LTree.nilT => st
  | LTree.consT t ts => maybe_record_list p (maybe_record p st t) ts
end

/-- One whole pass of ClassPrelinker::record_preloaded_klasses(int):
a fresh recorder (empty seen set and list) iterated over the gathered
classes, starting from the preloaded-classes set accumulated so far. -/
def record_pass (p : Pass) (preloaded0 : List Nat) (roots : LTree) : RecState :=
  maybe_record_list p ⟨[], [], preloaded0⟩ roots

/-- Whether a class appears strictly before another in the output
sequence: at the first occurrence of a, some later element equals b. -/
def precedes (a b : Nat) : List Nat → Bool
  | [] => false
  | x :: xs => if x = a then xs.contains b else precedes a b xs

/-- The skip battery folded into one predicate: a class is appended by
maybe_record (when first seen) exactly when all skip conditions fail. -/
def qualifies (p : Pass) (i : CInfo) : Bool :=
  !i.is_vm &&
  !(p.ltype = LType.bootT && !(p.record_java_base_only == i.is_java_base)) &&
  !i.hidden &&
  loader_type_matches p i &&
  !i.is_shared &&
  !(i.in_named_module && !i.is_modules_image)

/-- The filter named by the claim: same loader category, same boot
sub-pass, not a vm class, not hidden, not already in a finalized
archive.  (It omits the named-module / modules-image exclusion.) -/
def statedFilter (p : Pass) (i : CInfo) : Bool :=
  loader_type_matches p i &&
  !(p.ltype = LType.bootT && !(p.record_java_base_only == i.is_java_base)) &&
  !i.is_vm &&
  !i.hidden &&
  !i.is_shared

/-- The superclass chain truncated at the first link that fails the skip
battery: the chain classes all of whose intermediate superclasses (and
themselves) qualify. -/
def qualSuperChain (p : Pass) : CTree → List CTree
  | CTree.node _ s _ =>
    match s with
    | OTree.noneT => []
    | OTree.someT t =>
      if qualifies p (infoOf t) then t :: qualSuperChain p t else []

/-- The directly-declared interfaces of a class, as a plain list. -/
def intfList : CTree → List CTree
  | CTree.node _ _ l => depsOf.toListL l

/-- The directly-declared interfaces that pass the skip battery. -/
def qualIntfs (p : Pass) (t : CTree) : List CTree :=
  (intfList t).filter (fun d => qualifies p (infoOf d))

/-- Coherence of a forest: any two occurrences of the same class id
anywhere in the forest carry identical subtrees (the forest depicts one
class graph). -/
abbrev CoherentL (roots : LTree) : Prop :=
  ∀ t1 ∈ subtreesL roots, ∀ t2 ∈ subtreesL roots, kidOf t1 = kidOf t2 → t1 = t2

/-- Claim C1 exactly as stated: the pass output is duplicate-free, and
for every recorded class, every class of its superclass chain and its
directly-declared interfaces passing statedFilter appears strictly
before it. -/
abbrev C1Stated (p : Pass) (preloaded0 : List Nat) (roots : LTree) : Prop :=
  (record_pass p preloaded0 roots).listr.Nodup ∧
  ∀ t ∈ subtreesL roots, kidOf t ∈ (record_pass p preloaded0 roots).listr →
    ∀ d ∈ superChain t ++ intfList t,
      statedFilter p (infoOf d) = true →
      precedes (kidOf d) (kidOf t) (record_pass p preloaded0 roots).listr = true

/-- The amended claim C1: the modules-image exclusion joins the filter,
and a superclass-chain class is only promised when every link of the
chain down to it passes the whole skip battery. -/
def C1Amended (p : Pass) (preloaded0 : List Nat) (roots : LTree) : Prop :=
  (record_pass p preloaded0 roots).listr.Nodup ∧
  ∀ t ∈ subtreesL roots, kidOf t ∈ (record_pass p preloaded0 roots).listr →
    ∀ d ∈ qualSuperChain p t ++ qualIntfs p t,
      precedes (kidOf d) (kidOf t) (record_pass p preloaded0 roots).listr = true

/-! Proof-support predicates for the recorder development. -/

/-- The ids of the classes of a forest. -/
def LKids (l : LTree) : List Nat :=
  (subtreesL l).map kidOf

/-- Some class of the universe U with this id passes the skip battery. -/
def qualK (p : Pass) (U : List CTree) (k : Nat) : Prop :=
  ∃ t ∈ U, kidOf t = k ∧ qualifies p (infoOf t) = true

/-- Dependency ordering of a partial output sequence: every recorded
class of U has each of its qualifying direct dependencies strictly
earlier in the sequence. -/
def DepInv (p : Pass) (U : List CTree) (L : List Nat) : Prop :=
  ∀ t ∈ U, kidOf t ∈ L → ∀ d ∈ depsOf t, qualifies p (infoOf d) = true →
    precedes (kidOf d) (kidOf t) L = true

/-- The recorder invariant, relative to the set P of ids currently on
the recursion stack: the output is duplicate-free, recorded classes are
seen, a seen-but-unrecorded class is on the stack or unqualified, and
the output is dependency-ordered. -/
def StInv (p : Pass) (U : List CTree) (P : List Nat) (st : RecState) : Prop :=
  st.listr.Nodup ∧
  (∀ k ∈ st.listr, k ∈ st.seen) ∧
  (∀ k ∈ st.seen, k ∉ st.listr → k ∈ P ∨ ¬ qualK p U k) ∧
  DepInv p U st.listr

/-- Postcondition of one maybe_record call on tree T: the seen set and
the output grow by ids of the subtree only, T is seen, the invariant is
preserved, and a qualifying T ends up recorded. -/
def MRPost (p : Pass) (U : List CTree) (T : CTree) (st : RecState) (P : List Nat)
    (st' : RecState) : Prop :=
  (∃ ds, st'.seen = st.seen ++ ds ∧ ∀ k ∈ ds, k ∈ treeKids T) ∧
  kidOf T ∈ st'.seen ∧
  (∃ dl, st'.listr = st.listr ++ dl ∧ ∀ k ∈ dl, k ∈ treeKids T) ∧
  StInv p U P st' ∧
  (qualifies p (infoOf T) = true → kidOf T ∈ st'.listr)

/-- Postcondition of a maybe_record_list call on forest l. -/
def LPost (p : Pass) (U : List CTree) (l : LTree) (st : RecState) (P : List Nat)
    (st' : RecState) : Prop :=
  (∃ ds, st'.seen = st.seen ++ ds ∧ ∀ k ∈ ds, k ∈ LKids l) ∧
  (∃ dl, st'.listr = st.listr ++ dl ∧ ∀ k ∈ dl, k ∈ LKids l) ∧
  StInv p U P st' ∧
  (∀ t ∈ depsOf.toListL l, qualifies p (infoOf t) = true → kidOf t ∈ st'.listr)

/-- The per-tree specification of maybe_record. -/
def CSpec (p : Pass) (U : List CTree) (T : CTree) : Prop :=
  ∀ st P, StInv p U P st → (∀ k ∈ P, k ∉ treeKids T) →
    MRPost p U T st P (maybe_record p st T)

/-- The per-forest specification of maybe_record_list. -/
def LSpec (p : Pass) (U : List CTree) (l : LTree) : Prop :=
  ∀ st P, StInv p U P st → (∀ k ∈ P, k ∉ LKids l) →
    LPost p U l st P (maybe_record_list p st l)

/-- Concrete data for exercising the field oracle: a shared app holder
(id 1) whose superclass (id 9) is the target of a resolved field entry
with one non-static field (name 10, signature 20). -/
def exHolder : IKlass := ⟨1, false, false, false, true, Loader.systemL, [9]⟩

def exTargetIK : IKlass := ⟨9, false, true, false, false, Loader.bootL, []⟩

def exTargetK : RKlass := ⟨some exTargetIK, [⟨10, 20, false⟩]⟩

/-- A pool whose entry 0 is a field reference into the class entry 1. -/
def exCPool : CPool := ⟨exHolder, [CPE.fieldE 1 10 20, CPE.klassE exTargetK]⟩

def exOracle : POracle := ⟨[], [], [], []⟩

/-! Concrete classes exercising the recorder: an app-loader pass over a
class exC whose direct superclass exS1 is hidden, whose grandsuperclass
exS2 is an ordinary app class, and whose directly-declared interface exM
sits in a named module not taken from the modules image. -/

/-- exS2: an ordinary shared app class (id 0), nothing special. -/
def exInfoS2 : CInfo := ⟨0, false, false, false, false, false, true, false, false, false⟩

/-- exS1: a hidden shared app class (id 1). -/
def exInfoS1 : CInfo := ⟨1, false, true, false, false, false, true, false, false, false⟩

/-- exC: an ordinary shared app class (id 2). -/
def exInfoC : CInfo := ⟨2, false, false, false, false, false, true, false, false, false⟩

/-- exM: a shared app interface (id 3) in a named module that is not the
modules image. -/
def exInfoM : CInfo := ⟨3, false, false, false, false, false, true, false, true, false⟩

def exS2 : CTree := CTree.node exInfoS2 OTree.noneT LTree.nilT

def exM : CTree := CTree.node exInfoM OTree.noneT LTree.nilT

def exS1 : CTree := CTree.node exInfoS1 (OTree.someT exS2) LTree.nilT

def exC : CTree := CTree.node exInfoC (OTree.someT exS1) (LTree.consT exM LTree.nilT)

/-- The gathered-class list the recorder iterates over. -/
def exRoots : LTree := LTree.consT exC (LTree.consT exS1 (LTree.consT exS2 (LTree.consT exM LTree.nilT)))

/-- The application-loader pass. -/
def appPass : Pass := ⟨LType.appT, false⟩

/-- A two-class hierarchy (exW2 extends exW1, both plain app classes)
for exercising the positive statement on a concrete input. -/
def exInfoW1 : CInfo := ⟨10, false, false, false, false, false, true, false, false, false⟩

def exInfoW2 : CInfo := ⟨11, false, false, false, false, false, true, false, false, false⟩

def exW1 : CTree := CTree.node exInfoW1 OTree.noneT LTree.nilT

def exW2 : CTree := CTree.node exInfoW2 (OTree.someT exW1) LTree.nilT

def exWRoots : LTree := LTree.consT exW2 (LTree.consT exW1 LTree.nilT)

end JdkCds

namespace JdkCds

/-! # Proofs: training record store -/

lemma mtds_get_set (tbl : MTDTable) (n : String) (m : MTD) :
    mtds_get (mtds_set tbl n m) n = if (mtds_get tbl n).isSome then some m else none := by
  induction tbl with
  | nil => simp [mtds_get, mtds_set]
  | cons h t ih =>
    obtain ⟨k, v⟩ := h
    by_cases hk : k = n
    · simp [mtds_get, mtds_set, hk]
    · simp [mtds_get, mtds_set, hk, ih]

lemma mtds_get_put (tbl : MTDTable) (n : String) (m : MTD)
    (h : mtds_get tbl n = none) : mtds_get (mtds_put tbl n m) n = some m := by
  induction tbl with
  | nil => simp [mtds_get, mtds_put]
  | cons hd t ih =>
    obtain ⟨k, v⟩ := hd
    by_cases hk : k = n
    · simp [mtds_get, hk] at h
    · simp [mtds_get, mtds_put, hk] at h ⊢
      exact ih h

/-- The record after one processed call, as a function of the record before. -/
lemma mtds_get_notice (tbl : MTDTable) (name : String) (l : Int) (i : Bool) :
    mtds_get (notice_compilation true tbl name l i) name =
      some (mtd_update ((mtds_get tbl name).getD ⟨l, i⟩) l i) := by
  unfold notice_compilation
  cases h : mtds_get tbl name with
  | none => simp [h, mtds_get_put tbl name _ h]
  | some m => simp [h, mtds_get_set, Option.isSome]

/-- mtd_update never raises the only-inlined flag. -/
lemma mtd_update_only_inlined_mono (m : MTD) (l : Int) (i : Bool)
    (h : m.only_inlined = false) : (mtd_update m l i).only_inlined = false := by
  unfold mtd_update
  simp only [h, Bool.false_and, if_neg Bool.false_ne_true]
  split
  · simp [h]
  · split <;> simp [h]

/-- A non-inlined call leaves the flag false whatever it was before. -/
lemma mtd_update_not_inlined (m : MTD) (l : Int) :
    (mtd_update m l false).only_inlined = false := by
  cases h : m.only_inlined <;>
    simp only [mtd_update, h, Bool.not_false, Bool.true_and, Bool.false_and,
      if_true, if_false] <;>
    split <;> simp [h] <;> split <;> simp [h]

/-! # Proofs: preload recorder structural lemmas -/

mutual
lemma sizeOf_le_subC : ∀ (t : CTree), ∀ t' ∈ subtreesC t, sizeOf t' ≤ sizeOf t
  | CTree.node i s l => by
    intro t' ht'
    simp [subtreesC] at ht'
    rcases ht' with h | h | h
    · subst h; exact le_refl _
    · have := sizeOf_le_subO s t' h
      simp only [CTree.node.sizeOf_spec]
      omega
    · have := sizeOf_le_subL l t' h
      simp only [CTree.node.sizeOf_spec]
      omega
lemma sizeOf_le_subO : ∀ (o : OTree), ∀ t' ∈ subtreesO o, sizeOf t' ≤ sizeOf o
  | OTree.noneT => by intro t' h; simp [subtreesO] at h
  | OTree.someT t => by
    intro t' h
    have := sizeOf_le_subC t t' h
    simp only [OTree.someT.sizeOf_spec]
    omega
lemma sizeOf_le_subL : ∀ (l : LTree), ∀ t' ∈ subtreesL l, sizeOf t' ≤ sizeOf l
  | LTree.nilT => by intro t' h; simp [subtreesL] at h
  | LTree.consT t ts => by
    intro t' h
    simp [subtreesL] at h
    rcases h with h | h
    · have := sizeOf_le_subC t t' h
      simp only [LTree.consT.sizeOf_spec]
      omega
    · have := sizeOf_le_subL ts t' h
      simp only [LTree.consT.sizeOf_spec]
      omega
end

lemma self_mem_subtreesC (t : CTree) : t ∈ subtreesC t := by
  cases t with
  | node i s l => simp [subtreesC]

mutual
lemma subC_trans : ∀ (t : CTree), ∀ t' ∈ subtreesC t, ∀ t'' ∈ subtreesC t', t'' ∈ subtreesC t
  | CTree.node i s l => by
    intro t' ht' t'' ht''
    simp [subtreesC] at ht' ⊢
    rcases ht' with h | h | h
    · subst h
      simp [subtreesC] at ht''
      exact ht''
    · exact Or.inr (Or.inl (subO_trans s t' h t'' ht''))
    · exact Or.inr (Or.inr (subL_trans l t' h t'' ht''))
lemma subO_trans : ∀ (o : OTree), ∀ t' ∈ subtreesO o, ∀ t'' ∈ subtreesC t', t'' ∈ subtreesO o
  | OTree.noneT => by intro t' h; simp [subtreesO] at h
  | OTree.someT t => by
    intro t' h t'' h''
    simp [subtreesO] at h ⊢
    exact subC_trans t t' h t'' h''
lemma subL_trans : ∀ (l : LTree), ∀ t' ∈ subtreesL l, ∀ t'' ∈ subtreesC t', t'' ∈ subtreesL l
  | LTree.nilT => by intro t' h; simp [subtreesL] at h
  | LTree.consT t ts => by
    intro t' h t'' h''
    simp [subtreesL] at h ⊢
    rcases h with h | h
    · exact Or.inl (subC_trans t t' h t'' h'')
    · exact Or.inr (subL_trans ts t' h t'' h'')
end

/-- Members of a forest list are in the forest subtree set. -/
lemma toListL_self_subL : ∀ (l : LTree), ∀ t ∈ depsOf.toListL l, t ∈ subtreesL l
  | LTree.nilT => by intro t ht; simp [depsOf.toListL] at ht
  | LTree.consT u us => by
    intro t ht
    simp [depsOf.toListL] at ht
    simp [subtreesL]
    rcases ht with ht | ht
    · subst ht; exact Or.inl (self_mem_subtreesC t)
    · exact Or.inr (toListL_self_subL us t ht)

/-- Members of a forest list are subtrees of the forest. -/
lemma toListL_mem_subtreesL (l : LTree) : ∀ t ∈ depsOf.toListL l, ∀ t' ∈ subtreesC t, t' ∈ subtreesL l := by
  intro t ht t' ht'
  exact subL_trans l t (toListL_self_subL l t ht) t' ht'

/-- Members of a forest list are strictly smaller than the forest. -/
lemma toListL_sizeOf_lt : ∀ (l : LTree), ∀ t ∈ depsOf.toListL l, sizeOf t < sizeOf l
  | LTree.nilT => by intro t ht; simp [depsOf.toListL] at ht
  | LTree.consT u us => by
    intro t ht
    simp [depsOf.toListL] at ht
    simp only [LTree.consT.sizeOf_spec]
    rcases ht with ht | ht
    · subst ht; omega
    · have := toListL_sizeOf_lt us t ht; omega

/-- Direct dependencies are subtrees (not the root itself). -/
lemma depsOf_mem_subtreesC (t : CTree) : ∀ d ∈ depsOf t, ∀ t' ∈ subtreesC d, t' ∈ subtreesC t := by
  cases t with
  | node i s l =>
    intro d hd t' ht'
    simp only [depsOf, List.mem_append] at hd
    simp only [subtreesC, List.mem_cons, List.mem_append]
    rcases hd with hd | hd
    · cases s with
      | noneT => simp at hd
      | someT u =>
        simp at hd
        subst hd
        exact Or.inr (Or.inl (by simpa [subtreesO] using ht'))
    · exact Or.inr (Or.inr (toListL_mem_subtreesL l d hd t' ht'))

/-- Direct dependencies are strictly smaller. -/
lemma depsOf_sizeOf_lt (t : CTree) : ∀ d ∈ depsOf t, sizeOf d < sizeOf t := by
  cases t with
  | node i s l =>
    intro d hd
    simp only [depsOf, List.mem_append] at hd
    simp only [CTree.node.sizeOf_spec]
    rcases hd with hd | hd
    · cases s with
      | noneT => simp at hd
      | someT u =>
        simp at hd
        subst hd
        simp only [OTree.someT.sizeOf_spec]
        omega
    · have := toListL_sizeOf_lt l d hd
      omega

/-! # Proofs: the precedes relation -/

lemma precedes_mem {a b : Nat} {L : List Nat} (h : precedes a b L = true) :
    a ∈ L ∧ b ∈ L := by
  induction L with
  | nil => simp [precedes] at h
  | cons x xs ih =>
    simp only [precedes] at h
    by_cases hx : x = a
    · subst hx
      simp [if_pos rfl] at h
      simp
      right
      exact h
    · rw [if_neg hx] at h
      have := ih h
      simp [this.1, this.2]

lemma precedes_append {a b : Nat} {L : List Nat} (L' : List Nat)
    (h : precedes a b L = true) : precedes a b (L ++ L') = true := by
  induction L with
  | nil => simp [precedes] at h
  | cons x xs ih =>
    simp only [precedes] at h ⊢
    by_cases hx : x = a
    · rw [if_pos hx] at h ⊢
      simp_all
    · rw [if_neg hx] at h ⊢
      exact ih h

lemma precedes_append_right {a b : Nat} {L : List Nat} (h : a ∈ L) :
    precedes a b (L ++ [b]) = true := by
  induction L with
  | nil => simp at h
  | cons x xs ih =>
    simp only [List.cons_append, precedes]
    by_cases hx : x = a
    · rw [if_pos hx]
      simp
    · rw [if_neg hx]
      apply ih
      rcases List.mem_cons.mp h with h | h
      · exact absurd h.symm hx
      · exact h

lemma precedes_trans {a b c : Nat} {L : List Nat} (hnd : L.Nodup)
    (hab : precedes a b L = true) (hbc : precedes b c L = true) :
    precedes a c L = true := by
  induction L with
  | nil => simp [precedes] at hab
  | cons x xs ih =>
    have hnd' : xs.Nodup := (List.nodup_cons.mp hnd).2
    have hxn : x ∉ xs := (List.nodup_cons.mp hnd).1
    simp only [precedes] at hab hbc ⊢
    by_cases hx : x = a
    · rw [if_pos hx] at hab ⊢
      by_cases hxb : x = b
      · exfalso
        subst hxb
        subst hx
        simp at hab
        exact hxn hab
      · rw [if_neg hxb] at hbc
        have := (precedes_mem hbc).2
        simpa using this
    · rw [if_neg hx] at hab ⊢
      have hb : b ∈ xs := (precedes_mem hab).2
      have hxb : x ≠ b := fun h => hxn (h ▸ hb)
      rw [if_neg hxb] at hbc
      exact ih hnd' hab hbc

/-! # Proofs: the recorder DFS development -/

lemma contains_iff_mem (l : List Nat) (k : Nat) : l.contains k = true ↔ k ∈ l := by
  simp [List.contains, List.elem_iff]

lemma kid_mem_treeKids (t : CTree) : kidOf t ∈ treeKids t :=
  List.mem_map_of_mem kidOf (self_mem_subtreesC t)

lemma treeKids_sub_of_subtree {u T : CTree} (h : u ∈ subtreesC T) :
    ∀ k ∈ treeKids u, k ∈ treeKids T := by
  intro k hk
  obtain ⟨t', ht', rfl⟩ := List.mem_map.mp hk
  exact List.mem_map_of_mem kidOf (subC_trans T u h t' ht')

lemma sup_mem_subtreesC (i : CInfo) (u : CTree) (l : LTree) :
    u ∈ subtreesC (CTree.node i (OTree.someT u) l) := by
  simp [subtreesC, subtreesO, self_mem_subtreesC]

lemma subL_sub_subtreesC (i : CInfo) (s : OTree) (l : LTree) :
    ∀ t' ∈ subtreesL l, t' ∈ subtreesC (CTree.node i s l) := by
  intro t' h
  simp [subtreesC]
  exact Or.inr (Or.inr h)

lemma LKids_sub_treeKids (i : CInfo) (s : OTree) (l : LTree) :
    ∀ k ∈ LKids l, k ∈ treeKids (CTree.node i s l) := by
  intro k hk
  obtain ⟨t', ht', rfl⟩ := List.mem_map.mp hk
  exact List.mem_map_of_mem kidOf (subL_sub_subtreesC i s l t' ht')

/-- Under coherence, the root id of a class never occurs among its own
super or interface subtrees (the class graph is acyclic). -/
lemma root_kid_fresh {U : List CTree}
    (hcl : ∀ t ∈ U, ∀ t' ∈ subtreesC t, t' ∈ U)
    (hco : ∀ t1 ∈ U, ∀ t2 ∈ U, kidOf t1 = kidOf t2 → t1 = t2)
    (i : CInfo) (s : OTree) (l : LTree)
    (hTU : CTree.node i s l ∈ U) :
    (∀ t' ∈ subtreesO s, kidOf t' ≠ i.kid) ∧ (∀ t' ∈ subtreesL l, kidOf t' ≠ i.kid) := by
  constructor
  · intro t' ht' hk
    have hmem : t' ∈ subtreesC (CTree.node i s l) := by
      simp [subtreesC]
      exact Or.inr (Or.inl ht')
    have ht'U : t' ∈ U := hcl _ hTU t' hmem
    have : t' = CTree.node i s l := hco t' ht'U _ hTU (by simpa [kidOf] using hk)
    have hle := sizeOf_le_subO s t' ht'
    rw [this] at hle
    simp only [CTree.node.sizeOf_spec] at hle
    omega
  · intro t' ht' hk
    have hmem : t' ∈ subtreesC (CTree.node i s l) := subL_sub_subtreesC i s l t' ht'
    have ht'U : t' ∈ U := hcl _ hTU t' hmem
    have : t' = CTree.node i s l := hco t' ht'U _ hTU (by simpa [kidOf] using hk)
    have hle := sizeOf_le_subL l t' ht'
    rw [this] at hle
    simp only [CTree.node.sizeOf_spec] at hle
    omega

/-- A rejected (unqualified) class only gets marked seen. -/
lemma maybe_record_reject (p : Pass) (st : RecState) (i : CInfo) (s : OTree) (l : LTree)
    (hseen : st.seen.contains i.kid = false) (hq : qualifies p i = false) :
    maybe_record p st (CTree.node i s l) = { st with seen := st.seen ++ [i.kid] } := by
  simp only [maybe_record, hseen, Bool.false_eq_true, if_false]
  split
  · rfl
  · split
    · rfl
    · split
      · rfl
      · split
        · rfl
        · split
          · rfl
          · split
            · rfl
            · exfalso
              simp only [qualifies] at hq
              simp_all

/-- A qualifying class runs the full body: mark seen, recurse into the
super and the interfaces, append. -/
lemma maybe_record_accept (p : Pass) (st : RecState) (i : CInfo) (s : OTree) (l : LTree)
    (hseen : st.seen.contains i.kid = false) (hq : qualifies p i = true) :
    maybe_record p st (CTree.node i s l) =
      { maybe_record_list p
          (maybe_record_sup p { st with seen := st.seen ++ [i.kid] } s) l with
        listr := (maybe_record_list p
          (maybe_record_sup p { st with seen := st.seen ++ [i.kid] } s) l).listr ++ [i.kid]
        preloaded := put_if_absent (maybe_record_list p
          (maybe_record_sup p { st with seen := st.seen ++ [i.kid] } s) l).preloaded i.kid } := by
  have hconj := hq
  simp only [qualifies, Bool.and_eq_true, Bool.not_eq_true'] at hconj
  obtain ⟨⟨⟨⟨⟨h1, h2⟩, h3⟩, h4⟩, h5⟩, h6⟩ := hconj
  simp only [maybe_record, hseen, Bool.false_eq_true, if_false]
  rw [if_neg (by simp [h1]), if_neg (by simp [h2]), if_neg (by simp [h3]),
    if_neg (by simp [h4]), if_neg (by simp [h5]), if_neg (by simp [h6])]

lemma treeKids_sub_LKids_head (u : CTree) (us : LTree) :
    ∀ k ∈ treeKids u, k ∈ LKids (LTree.consT u us) := by
  intro k hk
  obtain ⟨t', ht', rfl⟩ := List.mem_map.mp hk
  refine List.mem_map_of_mem kidOf ?_
  simp [subtreesL]
  exact Or.inl ht'

lemma LKids_sub_LKids_tail (u : CTree) (us : LTree) :
    ∀ k ∈ LKids us, k ∈ LKids (LTree.consT u us) := by
  intro k hk
  obtain ⟨t', ht', rfl⟩ := List.mem_map.mp hk
  refine List.mem_map_of_mem kidOf ?_
  simp [subtreesL]
  exact Or.inr ht'

/-- The forest walk satisfies its postcondition whenever every member
tree satisfies the per-tree specification. -/
lemma lspec_of_cspec (p : Pass) (U : List CTree) :
    ∀ (l : LTree), (∀ t ∈ depsOf.toListL l, CSpec p U t) → LSpec p U l
  | LTree.nilT => by
    intro _ st P hinv _
    simp only [LSpec, maybe_record_list]
    exact ⟨⟨[], by simp, by simp⟩, ⟨[], by simp, by simp⟩, hinv,
      by intro t ht; simp [depsOf.toListL] at ht⟩
  | LTree.consT u us => by
    intro hc st P hinv hdisj
    simp only [maybe_record_list]
    have hcu : CSpec p U u := hc u (by simp [depsOf.toListL])
    have hdisju : ∀ k ∈ P, k ∉ treeKids u := by
      intro k hk hmem
      exact hdisj k hk (treeKids_sub_LKids_head u us k hmem)
    obtain ⟨⟨ds1, hseen1, hds1⟩, hkid1, ⟨dl1, hlist1, hdl1⟩, hinv1, hcomp1⟩ :=
      hcu st P hinv hdisju
    have hcus : ∀ t ∈ depsOf.toListL us, CSpec p U t := by
      intro t ht
      exact hc t (by simp [depsOf.toListL]; exact Or.inr ht)
    have hdisjus : ∀ k ∈ P, k ∉ LKids us := by
      intro k hk hmem
      exact hdisj k hk (LKids_sub_LKids_tail u us k hmem)
    obtain ⟨⟨ds2, hseen2, hds2⟩, ⟨dl2, hlist2, hdl2⟩, hinv2, hcomp2⟩ :=
      lspec_of_cspec p U us hcus (maybe_record p st u) P hinv1 hdisjus
    refine ⟨⟨ds1 ++ ds2, by rw [hseen2, hseen1, List.append_assoc], ?_⟩,
            ⟨dl1 ++ dl2, by rw [hlist2, hlist1, List.append_assoc], ?_⟩, hinv2, ?_⟩
    · intro k hk
      rcases List.mem_append.mp hk with hk | hk
      · exact treeKids_sub_LKids_head u us k (hds1 k hk)
      · exact LKids_sub_LKids_tail u us k (hds2 k hk)
    · intro k hk
      rcases List.mem_append.mp hk with hk | hk
      · exact treeKids_sub_LKids_head u us k (hdl1 k hk)
      · exact LKids_sub_LKids_tail u us k (hdl2 k hk)
    · intro t ht hq
      simp [depsOf.toListL] at ht
      rcases ht with rfl | ht
      · rw [hlist2]
        exact List.mem_append_left _ (hcomp1 hq)
      · exact hcomp2 t ht hq

/-- Every tree of a subtree-closed coherent universe satisfies the
per-tree specification of maybe_record. -/
lemma cspec_all (p : Pass) (U : List CTree)
    (hcl : ∀ t ∈ U, ∀ t' ∈ subtreesC t, t' ∈ U)
    (hco : ∀ t1 ∈ U, ∀ t2 ∈ U, kidOf t1 = kidOf t2 → t1 = t2) :
    ∀ (T : CTree), T ∈ U → CSpec p U T := by
  suffices H : ∀ (n : Nat) (T : CTree), sizeOf T < n → T ∈ U → CSpec p U T by
    intro T hT
    exact H (sizeOf T + 1) T (by omega) hT
  intro n
  induction n with
  | zero => intro T h; omega
  | succ n ih =>
    intro T hsize hTU
    cases T with
    | node i s l =>
      unfold CSpec
      intro st P hinv hdisj
      by_cases hseen : st.seen.contains i.kid = true
      · -- already seen: the call is a no-op
        have heq : maybe_record p st (CTree.node i s l) = st := by
          simp only [maybe_record, hseen, if_true]
        rw [heq]
        have hkmem : i.kid ∈ st.seen := (contains_iff_mem _ _).mp hseen
        refine ⟨⟨[], by simp, by simp⟩, hkmem, ⟨[], by simp, by simp⟩, hinv, ?_⟩
        intro hq
        by_contra hnot
        rcases hinv.2.2.1 i.kid hkmem hnot with hP | hnq
        · exact hdisj i.kid hP (by simpa [kidOf] using kid_mem_treeKids (CTree.node i s l))
        · exact hnq ⟨CTree.node i s l, hTU, rfl, hq⟩
      · have hseenF : st.seen.contains i.kid = false := by simpa using hseen
        have hkid_not_seen : i.kid ∉ st.seen := by
          intro hmem
          rw [(contains_iff_mem _ _).mpr hmem] at hseenF
          simp at hseenF
        have hkid_not_listr : i.kid ∉ st.listr := fun hmem => hkid_not_seen (hinv.2.1 _ hmem)
        have hfresh := root_kid_fresh hcl hco i s l hTU
        by_cases hq : qualifies p i = true
        case neg =>
          have hqF : qualifies p i = false := by simpa using hq
          rw [maybe_record_reject p st i s l hseenF hqF]
          refine ⟨⟨[i.kid], rfl,
              by simpa [kidOf] using kid_mem_treeKids (CTree.node i s l)⟩,
            by simp [kidOf], ⟨[], by simp, by simp⟩, ?_, fun hq' => absurd hq' hq⟩
          obtain ⟨hnd, hsub, h3, hdep⟩ := hinv
          refine ⟨hnd, ?_, ?_, hdep⟩
          · intro k hk
            exact List.mem_append_left _ (hsub k hk)
          · intro k hk hknl
            rcases List.mem_append.mp hk with hk | hk
            · exact h3 k hk hknl
            · right
              simp at hk
              subst hk
              rintro ⟨t', ht'U, hk', hq'⟩
              have ht'eq : t' = CTree.node i s l := hco t' ht'U _ hTU (by simpa [kidOf] using hk')
              rw [ht'eq] at hq'
              simp only [infoOf] at hq'
              rw [hq'] at hqF
              simp at hqF
        case pos =>
          rw [maybe_record_accept p st i s l hseenF hq]
          -- invariant at the freshly-marked state, stack extended by the root
          have hinv1 : StInv p U (P ++ [i.kid]) { st with seen := st.seen ++ [i.kid] } := by
            obtain ⟨hnd, hsub, h3, hdep⟩ := hinv
            refine ⟨hnd, ?_, ?_, hdep⟩
            · intro k hk
              exact List.mem_append_left _ (hsub k hk)
            · intro k hk hknl
              rcases List.mem_append.mp hk with hk | hk
              · rcases h3 k hk hknl with hP | hnq
                · exact Or.inl (List.mem_append_left _ hP)
                · exact Or.inr hnq
              · simp at hk
                subst hk
                exact Or.inl (List.mem_append_right _ (by simp))
          -- the super recursion
          have hsup : ∃ ds2 dl2,
              (maybe_record_sup p { st with seen := st.seen ++ [i.kid] } s).seen =
                st.seen ++ [i.kid] ++ ds2 ∧
              (∀ k ∈ ds2, k ∈ (subtreesO s).map kidOf) ∧
              (maybe_record_sup p { st with seen := st.seen ++ [i.kid] } s).listr =
                st.listr ++ dl2 ∧
              (∀ k ∈ dl2, k ∈ (subtreesO s).map kidOf) ∧
              StInv p U (P ++ [i.kid]) (maybe_record_sup p { st with seen := st.seen ++ [i.kid] } s) ∧
              (∀ u, s = OTree.someT u → qualifies p (infoOf u) = true →
                kidOf u ∈ (maybe_record_sup p { st with seen := st.seen ++ [i.kid] } s).listr) := by
            cases s with
            | noneT =>
              refine ⟨[], [], by simp [maybe_record_sup], by simp, by simp [maybe_record_sup],
                by simp, by simpa [maybe_record_sup] using hinv1, ?_⟩
              intro u hu
              exact absurd hu (by simp)
            | someT u =>
              have huU : u ∈ U := hcl _ hTU u (sup_mem_subtreesC i u l)
              have husz : sizeOf u < n := by
                have h1 : sizeOf u < sizeOf (CTree.node i (OTree.someT u) l) :=
                  depsOf_sizeOf_lt _ u (by simp [depsOf])
                omega
              have hdisju : ∀ k ∈ P ++ [i.kid], k ∉ treeKids u := by
                intro k hk hmem
                rcases List.mem_append.mp hk with hk | hk
                · refine hdisj k hk (treeKids_sub_of_subtree (sup_mem_subtreesC i u l) k hmem)
                · simp at hk
                  subst hk
                  obtain ⟨t', ht', hkid'⟩ := List.mem_map.mp hmem
                  exact hfresh.1 t' (by simpa [subtreesO] using ht') hkid'
              obtain ⟨⟨ds2, hs2, hds2⟩, _, ⟨dl2, hl2, hdl2⟩, hinv2, hcomp2⟩ :=
                ih u husz huU _ _ hinv1 hdisju
              refine ⟨ds2, dl2, by simpa [maybe_record_sup] using hs2, ?_,
                by simpa [maybe_record_sup] using hl2, ?_,
                by simpa [maybe_record_sup] using hinv2, ?_⟩
              · intro k hk
                simpa [subtreesO, treeKids] using hds2 k hk
              · intro k hk
                simpa [subtreesO, treeKids] using hdl2 k hk
              · intro u' hu' hq'
                cases hu'
                simpa [maybe_record_sup] using hcomp2 hq'
          obtain ⟨ds2, dl2, hs2, hds2, hl2, hdl2, hinv2, hcomp2⟩ := hsup
          -- the interface recursion
          have hmembers : ∀ t ∈ depsOf.toListL l, CSpec p U t := by
            intro t ht
            have htU : t ∈ U := hcl _ hTU t (subL_sub_subtreesC i s l t (toListL_self_subL l t ht))
            have htsz : sizeOf t < n := by
              have h1 : sizeOf t < sizeOf l := toListL_sizeOf_lt l t ht
              have h2 : sizeOf l < sizeOf (CTree.node i s l) := by
                simp only [CTree.node.sizeOf_spec]
                omega
              omega
            exact ih t htsz htU
          have hdisjL : ∀ k ∈ P ++ [i.kid], k ∉ LKids l := by
            intro k hk hmem
            rcases List.mem_append.mp hk with hk | hk
            · exact hdisj k hk (LKids_sub_treeKids i s l k hmem)
            · simp at hk
              subst hk
              obtain ⟨t', ht', hkid'⟩ := List.mem_map.mp hmem
              exact hfresh.2 t' ht' hkid'
          obtain ⟨⟨ds3, hs3, hds3⟩, ⟨dl3, hl3, hdl3⟩, hinv3, hcomp3⟩ :=
            lspec_of_cspec p U l hmembers _ _ hinv2 hdisjL
          -- freshness of the root id against everything appended below it
          have hkid_ds2 : i.kid ∉ dl2 := by
            intro hmem
            obtain ⟨t', ht', hkid'⟩ := List.mem_map.mp (hdl2 _ hmem)
            exact hfresh.1 t' ht' hkid'
          have hkid_dl3 : i.kid ∉ dl3 := by
            intro hmem
            obtain ⟨t', ht', hkid'⟩ := List.mem_map.mp (hdl3 _ hmem)
            exact hfresh.2 t' ht' hkid'
          have hkid_st3 : i.kid ∉ (maybe_record_list p
              (maybe_record_sup p { st with seen := st.seen ++ [i.kid] } s) l).listr := by
            rw [hl3, hl2]
            intro hmem
            rcases List.mem_append.mp hmem with hmem | hmem
            · rcases List.mem_append.mp hmem with hmem | hmem
              · exact hkid_not_listr hmem
              · exact hkid_ds2 hmem
            · exact hkid_dl3 hmem
          -- assemble the postcondition
          obtain ⟨hnd3, hsub3, h33, hdep3⟩ := hinv3
          have hself : i.kid ∈ treeKids (CTree.node i s l) := by
            simpa [kidOf] using kid_mem_treeKids (CTree.node i s l)
          have hsubO_kids : ∀ k, k ∈ (subtreesO s).map kidOf → k ∈ treeKids (CTree.node i s l) := by
            intro k hk
            obtain ⟨t', ht', rfl⟩ := List.mem_map.mp hk
            refine List.mem_map_of_mem kidOf ?_
            simp [subtreesC]
            exact Or.inr (Or.inl ht')
          refine ⟨⟨[i.kid] ++ ds2 ++ ds3, ?_, ?_⟩, ?_, ⟨dl2 ++ dl3 ++ [i.kid], ?_, ?_⟩, ?_, ?_⟩
          · show (maybe_record_list p _ l).seen = _
            rw [hs3, hs2]
            simp [List.append_assoc]
          · intro k hk
            simp only [List.mem_append] at hk
            rcases hk with (hk | hk) | hk
            · simp at hk
              subst hk
              exact hself
            · exact hsubO_kids k (hds2 k hk)
            · exact LKids_sub_treeKids i s l k (hds3 k hk)
          · show kidOf (CTree.node i s l) ∈ (maybe_record_list p _ l).seen
            rw [hs3, hs2]
            simp [kidOf]
          · show (maybe_record_list p _ l).listr ++ [i.kid] = _
            rw [hl3, hl2]
            simp [List.append_assoc]
          · intro k hk
            simp only [List.mem_append] at hk
            rcases hk with (hk | hk) | hk
            · exact hsubO_kids k (hdl2 k hk)
            · exact LKids_sub_treeKids i s l k (hdl3 k hk)
            · simp at hk
              subst hk
              exact hself
          · -- the invariant at the final state, stack back to P
            refine ⟨?_, ?_, ?_, ?_⟩
            · refine List.Nodup.append hnd3 (List.nodup_singleton _) ?_
              intro a ha hb
              simp at hb
              subst hb
              exact hkid_st3 ha
            · intro k hk
              rcases List.mem_append.mp hk with hk | hk
              · exact hsub3 k hk
              · simp at hk
                subst hk
                rw [hs3, hs2]
                simp
            · intro k hk hknl
              have hknl3 : k ∉ (maybe_record_list p
                  (maybe_record_sup p { st with seen := st.seen ++ [i.kid] } s) l).listr :=
                fun hm => hknl (List.mem_append_left _ hm)
              rcases h33 k hk hknl3 with hP | hnq
              · rcases List.mem_append.mp hP with hP | hP
                · exact Or.inl hP
                · simp at hP
                  subst hP
                  exact absurd (List.mem_append_right _ (by simp)) hknl
              · exact Or.inr hnq
            · -- dependency ordering
              intro t htU hkt d hd hqd
              rcases List.mem_append.mp hkt with hkt | hkt
              · exact precedes_append _ (hdep3 t htU hkt d hd hqd)
              · simp at hkt
                have hteq : t = CTree.node i s l := hco t htU _ hTU (by simpa [kidOf] using hkt)
                subst hteq
                have hdkid : kidOf d ∈ (maybe_record_list p
                    (maybe_record_sup p { st with seen := st.seen ++ [i.kid] } s) l).listr := by
                  simp only [depsOf, List.mem_append] at hd
                  rcases hd with hd | hd
                  · cases s with
                    | noneT => simp at hd
                    | someT u =>
                      simp at hd
                      subst hd
                      have := hcomp2 d rfl hqd
                      rw [hl3]
                      exact List.mem_append_left _ this
                  · exact hcomp3 d hd hqd
                have : precedes (kidOf d) i.kid ((maybe_record_list p
                    (maybe_record_sup p { st with seen := st.seen ++ [i.kid] } s) l).listr
                      ++ [i.kid]) = true :=
                  precedes_append_right hdkid
                simpa [kidOf, hkt] using this
          · intro _
            simp [kidOf]

/-- Dependency ordering on direct superclasses extends along any
superclass chain whose links all qualify. -/
lemma chain_precedes (p : Pass) (U : List CTree) (L : List Nat)
    (hcl : ∀ t ∈ U, ∀ t' ∈ subtreesC t, t' ∈ U)
    (hnd : L.Nodup) (hdep : DepInv p U L) :
    ∀ t ∈ U, kidOf t ∈ L → ∀ d ∈ qualSuperChain p t,
      precedes (kidOf d) (kidOf t) L = true := by
  suffices H : ∀ (n : Nat) (t : CTree), sizeOf t < n → t ∈ U → kidOf t ∈ L →
      ∀ d ∈ qualSuperChain p t, precedes (kidOf d) (kidOf t) L = true by
    intro t htU hkt d hd
    exact H (sizeOf t + 1) t (by omega) htU hkt d hd
  intro n
  induction n with
  | zero => intro t h; omega
  | succ n ih =>
    intro t hsize htU hkt d hd
    cases t with
    | node i s l =>
      cases s with
      | noneT => simp [qualSuperChain] at hd
      | someT u =>
        simp only [qualSuperChain] at hd
        by_cases hqu : qualifies p (infoOf u) = true
        · rw [if_pos hqu] at hd
          have humem : u ∈ depsOf (CTree.node i (OTree.someT u) l) := by simp [depsOf]
          have hpu : precedes (kidOf u) (kidOf (CTree.node i (OTree.someT u) l)) L = true :=
            hdep _ htU hkt u humem hqu
          rcases List.mem_cons.mp hd with rfl | hd
          · exact hpu
          · have huU : u ∈ U := hcl _ htU u (sup_mem_subtreesC i u l)
            have husz : sizeOf u < n := by
              have := depsOf_sizeOf_lt (CTree.node i (OTree.someT u) l) u humem
              omega
            have hku : kidOf u ∈ L := (precedes_mem hpu).1
            have hpd : precedes (kidOf d) (kidOf u) L = true := ih u husz huU hku d hd
            exact precedes_trans hnd hpd hpu
        · rw [if_neg hqu] at hd
          simp at hd

/-- The invariant holds at the start of a pass. -/
lemma stinv_start (p : Pass) (U : List CTree) (pre0 : List Nat) :
    StInv p U [] ⟨[], [], pre0⟩ := by
  refine ⟨List.nodup_nil, ?_, ?_, ?_⟩
  · intro k hk
    simp at hk
  · intro k hk
    simp at hk
  · intro t _ hkt
    simp at hkt

/-- The postcondition of one whole recorder pass over the gathered
classes. -/
lemma record_pass_post (p : Pass) (pre0 : List Nat) (roots : LTree)
    (hco : CoherentL roots) :
    StInv p (subtreesL roots) [] (record_pass p pre0 roots) := by
  have hcl : ∀ t ∈ subtreesL roots, ∀ t' ∈ subtreesC t, t' ∈ subtreesL roots :=
    subL_trans roots
  have hmembers : ∀ t ∈ depsOf.toListL roots, CSpec p (subtreesL roots) t := by
    intro t ht
    exact cspec_all p (subtreesL roots) hcl hco t (toListL_self_subL roots t ht)
  obtain ⟨_, _, hinv, _⟩ :=
    lspec_of_cspec p (subtreesL roots) roots hmembers ⟨[], [], pre0⟩ []
      (stinv_start p (subtreesL roots) pre0) (by simp)
  exact hinv

/-- C1 (counterexample to the claim as stated): in an application-loader
pass over the gathered classes exC, exS1, exS2, exM, the class exC is
recorded although its grandsuperclass exS2 (same category, not vm, not
hidden, not shared) is recorded only after it, and its interface exM
(same category, not vm, not hidden, not shared) is never recorded, since
exM fails the named-module/modules-image exclusion and the hidden link
exS1 cuts the recursion before exS2. -/
theorem C1_stated_counterexample : ¬ C1Stated appPass [] exRoots := by decide

/-- C1 (amended): for every loader-category pass over a coherent class
forest, the produced preload sequence is duplicate-free, and for every
class C in the sequence, every class of the superclass chain of C
reachable through links that all pass the full skip battery (same loader
category, same boot sub-pass, not vm, not hidden, not already archived,
not excluded by the named-module/modules-image rule), and every
directly-declared interface of C passing that battery, appears in the
sequence strictly before C. -/
theorem C1_preload_sequence_ordered (p : Pass) (pre0 : List Nat) (roots : LTree)
    (hco : CoherentL roots) : C1Amended p pre0 roots := by
  obtain ⟨hnd, _, _, hdep⟩ := record_pass_post p pre0 roots hco
  refine ⟨hnd, ?_⟩
  intro t htU hkt d hd
  rcases List.mem_append.mp hd with hd | hd
  · exact chain_precedes p (subtreesL roots) _ (subL_trans roots) hnd hdep t htU hkt d hd
  · cases t with
    | node i s l =>
      simp only [qualIntfs, List.mem_filter] at hd
      obtain ⟨hdl, hq⟩ := hd
      refine hdep _ htU hkt d ?_ (by simpa using hq)
      simp only [depsOf, List.mem_append]
      right
      simpa [intfList] using hdl

/-- Witness for C1: the amended statement evaluated on the concrete
two-class hierarchy exW2 extends exW1. -/
theorem C1_preload_sequence_ordered_witness :
    CoherentL exWRoots ∧ C1Amended appPass [] exWRoots :=
  ⟨by decide, C1_preload_sequence_ordered appPass [] exWRoots (by decide)⟩

/-! # Proofs: training record store claims -/

/-- The level after an update: CompLevel_simple forces the simple level,
anything else only ever raises. -/
lemma mtd_update_level (m : MTD) (l : Int) (i : Bool) :
    (mtd_update m l i).level =
      if l = CompLevel_simple then CompLevel_simple
      else if l > m.level then l else m.level := by
  have hA : (if m.only_inlined && !i then { m with only_inlined := false } else m).level
      = m.level := by
    split <;> rfl
  simp only [mtd_update]
  by_cases hl : l = CompLevel_simple
  · simp [hl]
  · rw [if_neg hl, if_neg hl]
    by_cases hgt : l > (if m.only_inlined && !i then { m with only_inlined := false } else m).level
    · rw [if_pos hgt]
      rw [hA] at hgt
      rw [if_pos hgt]
    · rw [if_neg hgt]
      rw [hA] at hgt
      rw [if_neg hgt]
      exact hA

/-- C2: for any sequence of notice_compilation calls on one method, the
stored compile level never decreases except that a CompLevel_simple call
resets it to the simple level; a processed non-inlined call leaves the
only-inlined flag false, and once false the flag stays false through any
further sequence of calls. -/
theorem C2_notice_compilation_monotone :
    (∀ (tbl : MTDTable) (name : String) (m : MTD) (l : Int) (i : Bool),
      mtds_get tbl name = some m →
        ∃ m', mtds_get (notice_compilation true tbl name l i) name = some m' ∧
          (l = CompLevel_simple → m'.level = CompLevel_simple) ∧
          (l ≠ CompLevel_simple → m.level ≤ m'.level) ∧
          (i = false → m'.only_inlined = false) ∧
          (m.only_inlined = false → m'.only_inlined = false)) ∧
    (∀ (tbl : MTDTable) (name : String) (l : Int),
      ∃ m', mtds_get (notice_compilation true tbl name l false) name = some m' ∧
        m'.only_inlined = false) ∧
    (∀ (tbl : MTDTable) (name : String) (m : MTD) (calls : List (Int × Bool)),
      mtds_get tbl name = some m → m.only_inlined = false →
        ∃ m'', mtds_get (notice_run true tbl name calls) name = some m'' ∧
          m''.only_inlined = false) := by
  refine ⟨?_, ?_, ?_⟩
  · intro tbl name m l i hget
    refine ⟨mtd_update m l i, ?_, ?_, ?_, ?_, ?_⟩
    · rw [mtds_get_notice, hget]
      rfl
    · intro hl
      rw [mtd_update_level, if_pos hl]
    · intro hl
      rw [mtd_update_level, if_neg hl]
      split <;> omega
    · intro hi
      subst hi
      exact mtd_update_not_inlined m l
    · intro hm
      exact mtd_update_only_inlined_mono m l i hm
  · intro tbl name l
    refine ⟨mtd_update ((mtds_get tbl name).getD ⟨l, false⟩) l false, mtds_get_notice _ _ _ _, ?_⟩
    exact mtd_update_not_inlined _ l
  · intro tbl name m calls
    induction calls generalizing tbl m with
    | nil =>
      intro hget hflag
      exact ⟨m, hget, hflag⟩
    | cons c cs ih =>
      intro hget hflag
      have hstep : mtds_get (notice_compilation true tbl name c.1 c.2) name =
          some (mtd_update m c.1 c.2) := by
        rw [mtds_get_notice, hget]
        rfl
      have hflag' : (mtd_update m c.1 c.2).only_inlined = false :=
        mtd_update_only_inlined_mono m c.1 c.2 hflag
      simpa [notice_run, List.foldl_cons] using
        ih (notice_compilation true tbl name c.1 c.2) (mtd_update m c.1 c.2) hstep hflag'

/-- Witness for C2 on the record ("m", level 3, only_inlined true):
a level-3 non-inlined call keeps level 3 and clears the flag. -/
theorem C2_notice_compilation_monotone_witness :
    mtds_get [("m", (⟨3, true⟩ : MTD))] "m" = some ⟨3, true⟩ ∧
    ∃ m', mtds_get (notice_compilation true [("m", (⟨3, true⟩ : MTD))] "m" 3 false) "m" = some m' ∧
      ((3 : Int) = CompLevel_simple → m'.level = CompLevel_simple) ∧
      ((3 : Int) ≠ CompLevel_simple → (3 : Int) ≤ m'.level) ∧
      (false = false → m'.only_inlined = false) ∧
      ((⟨3, true⟩ : MTD).only_inlined = false → m'.only_inlined = false) :=
  ⟨rfl, C2_notice_compilation_monotone.1 [("m", ⟨3, true⟩)] "m" ⟨3, true⟩ 3 false rfl⟩

/-- C10: with no profile-store destination configured (need_data false),
notice_compilation returns at once and the training-data table, every
record in it, and hence every stored level and only-inlined flag, are
left untouched, for every method and every argument. -/
theorem C10_notice_compilation_disabled_noop (tbl : MTDTable) (name : String)
    (l : Int) (i : Bool) : notice_compilation false tbl name l i = tbl := rfl

/-! # Proofs: eligibility oracle claims -/

/-- C4: a hidden holder is rejected for every target; a non-hidden
holder that is a subtype of an instance-class target is accepted
whatever the loaders of the two classes are. -/
theorem C4_hidden_rejected_subtype_accepted :
    (∀ (s : POracle) (h : IKlass) (r : RKlass), h.hidden = true →
      (can_archive_resolved_klass s h r).1 = false) ∧
    (∀ (s : POracle) (h : IKlass) (r : RKlass) (ik : IKlass), h.hidden = false →
      r.inst = some ik → is_subtype_of h ik = true →
      (can_archive_resolved_klass s h r).1 = true) := by
  constructor
  · intro s h r hh
    simp [can_archive_resolved_klass, hh]
  · intro s h r ik hh hr hsub
    simp [can_archive_resolved_klass, hh, hr, hsub]

/-- Witness for C4: a hidden holder (id 0) against a non-instance
target, and a holder (id 1) whose direct superclass is the target
(id 2), across different loaders. -/
theorem C4_hidden_rejected_subtype_accepted_witness :
    (can_archive_resolved_klass ⟨[], [], [], []⟩
      ⟨0, true, false, false, false, Loader.bootL, []⟩ ⟨none, []⟩).1 = false ∧
    (can_archive_resolved_klass ⟨[], [], [], []⟩
      ⟨1, false, false, false, true, Loader.systemL, [2]⟩
      ⟨some ⟨2, false, true, false, false, Loader.bootL, []⟩, []⟩).1 = true :=
  ⟨C4_hidden_rejected_subtype_accepted.1 ⟨[], [], [], []⟩
      ⟨0, true, false, false, false, Loader.bootL, []⟩ ⟨none, []⟩ rfl,
   C4_hidden_rejected_subtype_accepted.2 ⟨[], [], [], []⟩
      ⟨1, false, false, false, true, Loader.systemL, [2]⟩
      ⟨some ⟨2, false, true, false, false, Loader.bootL, []⟩, []⟩
      ⟨2, false, true, false, false, Loader.bootL, []⟩ rfl rfl (by decide)⟩

/-- C5: for a non-hidden vm-class holder that is not a subtype of the
target, the decision is exactly whether the target is itself a vm
class. -/
theorem C5_vm_holder_iff_vm_target (s : POracle) (h : IKlass) (r : RKlass)
    (hh : h.hidden = false) (hvm : is_vm_class s h = true)
    (hns : holder_subtype_of h r = false) :
    (can_archive_resolved_klass s h r).1 = klass_is_vm s r := by
  cases hr : r.inst with
  | none => simp [can_archive_resolved_klass, klass_is_vm, hh, hr]
  | some ik =>
    have hns' : is_subtype_of h ik = false := by
      simpa [holder_subtype_of, hr] using hns
    simp [can_archive_resolved_klass, klass_is_vm, hh, hr, hns', hvm]

/-- Witness for C5: vm holder (id 5), instance target (id 6) outside
the vm set: rejected, matching klass_is_vm false. -/
theorem C5_vm_holder_iff_vm_target_witness :
    (can_archive_resolved_klass ⟨[5], [], [], []⟩
      ⟨5, false, true, false, false, Loader.bootL, []⟩
      ⟨some ⟨6, false, true, false, false, Loader.bootL, []⟩, []⟩).1 =
    klass_is_vm ⟨[5], [], [], []⟩ ⟨some ⟨6, false, true, false, false, Loader.bootL, []⟩, []⟩ :=
  C5_vm_holder_iff_vm_target ⟨[5], [], [], []⟩
    ⟨5, false, true, false, false, Loader.bootL, []⟩
    ⟨some ⟨6, false, true, false, false, Loader.bootL, []⟩, []⟩
    rfl (by decide) (by decide)

/-- C6: for a non-hidden, non-vm, non-subtype holder and a preloaded
instance target: a platform holder accepts and records the target in
the platform-initiated table exactly when the target loader differs
from the platform loader (one entry when fresh); an app holder does the
same against the system loader; a boot holder with a boot-loader target
accepts with no recording. -/
theorem C6_initiated_recording :
    (∀ (s : POracle) (h : IKlass) (ik : IKlass) (fs : List FieldD),
      h.hidden = false → h.shared_platform = true → is_vm_class s h = false →
      is_subtype_of h ik = false → is_preloaded_class s ik = true →
      (can_archive_resolved_klass s h ⟨some ik, fs⟩).1 = true ∧
      (ik.loader = Loader.platformL → (can_archive_resolved_klass s h ⟨some ik, fs⟩).2 = s) ∧
      (ik.loader ≠ Loader.platformL →
        (can_archive_resolved_klass s h ⟨some ik, fs⟩).2 =
          { s with platform_initiated := put_if_absent s.platform_initiated ik.kid }) ∧
      (ik.loader ≠ Loader.platformL → ik.kid ∉ s.platform_initiated →
        ((can_archive_resolved_klass s h ⟨some ik, fs⟩).2).platform_initiated.count ik.kid = 1)) ∧
    (∀ (s : POracle) (h : IKlass) (ik : IKlass) (fs : List FieldD),
      h.hidden = false → h.shared_platform = false → h.shared_app = true →
      is_vm_class s h = false →
      is_subtype_of h ik = false → is_preloaded_class s ik = true →
      (can_archive_resolved_klass s h ⟨some ik, fs⟩).1 = true ∧
      (ik.loader = Loader.systemL → (can_archive_resolved_klass s h ⟨some ik, fs⟩).2 = s) ∧
      (ik.loader ≠ Loader.systemL →
        (can_archive_resolved_klass s h ⟨some ik, fs⟩).2 =
          { s with app_initiated := put_if_absent s.app_initiated ik.kid }) ∧
      (ik.loader ≠ Loader.systemL → ik.kid ∉ s.app_initiated →
        ((can_archive_resolved_klass s h ⟨some ik, fs⟩).2).app_initiated.count ik.kid = 1)) ∧
    (∀ (s : POracle) (h : IKlass) (ik : IKlass) (fs : List FieldD),
      h.hidden = false → h.shared_platform = false → h.shared_app = false →
      h.shared_boot = true → is_vm_class s h = false →
      is_subtype_of h ik = false → is_preloaded_class s ik = true →
      ik.loader = Loader.bootL →
      (can_archive_resolved_klass s h ⟨some ik, fs⟩).1 = true ∧
      (can_archive_resolved_klass s h ⟨some ik, fs⟩).2 = s) := by
  refine ⟨?_, ?_, ?_⟩
  · intro s h ik fs hh hplat hvm hsub hpre
    by_cases hld : ik.loader = Loader.platformL
    · simp [can_archive_resolved_klass, hh, hsub, hvm, hpre, hplat, hld]
    · refine ⟨?_, ?_, ?_, ?_⟩
      · simp [can_archive_resolved_klass, hh, hsub, hvm, hpre, hplat, hld]
      · intro h'; exact absurd h' hld
      · intro _
        simp [can_archive_resolved_klass, hh, hsub, hvm, hpre, hplat, hld]
      · intro _ hfresh
        have hstate : (can_archive_resolved_klass s h ⟨some ik, fs⟩).2 =
            { s with platform_initiated := put_if_absent s.platform_initiated ik.kid } := by
          simp [can_archive_resolved_klass, hh, hsub, hvm, hpre, hplat, hld]
        rw [hstate]
        have hcf : s.platform_initiated.contains ik.kid = false := by
          cases hc : s.platform_initiated.contains ik.kid
          · rfl
          · exact absurd ((contains_iff_mem _ _).mp hc) hfresh
        have hput : put_if_absent s.platform_initiated ik.kid =
            s.platform_initiated ++ [ik.kid] := by
          simp [put_if_absent, hcf, hfresh]
        simp [hput, List.count_append, List.count_eq_zero.mpr hfresh]
  · intro s h ik fs hh hplat happ hvm hsub hpre
    by_cases hld : ik.loader = Loader.systemL
    · simp [can_archive_resolved_klass, hh, hsub, hvm, hpre, hplat, happ, hld]
    · refine ⟨?_, ?_, ?_, ?_⟩
      · simp [can_archive_resolved_klass, hh, hsub, hvm, hpre, hplat, happ, hld]
      · intro h'; exact absurd h' hld
      · intro _
        simp [can_archive_resolved_klass, hh, hsub, hvm, hpre, hplat, happ, hld]
      · intro _ hfresh
        have hstate : (can_archive_resolved_klass s h ⟨some ik, fs⟩).2 =
            { s with app_initiated := put_if_absent s.app_initiated ik.kid } := by
          simp [can_archive_resolved_klass, hh, hsub, hvm, hpre, hplat, happ, hld]
        rw [hstate]
        have hcf : s.app_initiated.contains ik.kid = false := by
          cases hc : s.app_initiated.contains ik.kid
          · rfl
          · exact absurd ((contains_iff_mem _ _).mp hc) hfresh
        have hput : put_if_absent s.app_initiated ik.kid =
            s.app_initiated ++ [ik.kid] := by
          simp [put_if_absent, hcf, hfresh]
        simp [hput, List.count_append, List.count_eq_zero.mpr hfresh]
  · intro s h ik fs hh hplat happ hboot hvm hsub hpre hld
    constructor <;>
      simp [can_archive_resolved_klass, hh, hsub, hvm, hpre, hplat, happ, hboot]

/-- Witness for C6: platform holder (id 1), preloaded boot-loaded
target (id 7) not yet in the initiated table: accepted with exactly one
recorded entry. -/
theorem C6_initiated_recording_witness :
    (can_archive_resolved_klass ⟨[], [7], [], []⟩
      ⟨1, false, false, true, false, Loader.platformL, []⟩
      ⟨some ⟨7, false, true, false, false, Loader.bootL, []⟩, []⟩).1 = true ∧
    ((can_archive_resolved_klass ⟨[], [7], [], []⟩
      ⟨1, false, false, true, false, Loader.platformL, []⟩
      ⟨some ⟨7, false, true, false, false, Loader.bootL, []⟩, []⟩).2).platform_initiated.count 7 = 1 :=
  ⟨(C6_initiated_recording.1 ⟨[], [7], [], []⟩
      ⟨1, false, false, true, false, Loader.platformL, []⟩
      ⟨7, false, true, false, false, Loader.bootL, []⟩ []
      rfl rfl (by decide) (by decide) (by decide)).1,
   (C6_initiated_recording.1 ⟨[], [7], [], []⟩
      ⟨1, false, false, true, false, Loader.platformL, []⟩
      ⟨7, false, true, false, false, Loader.bootL, []⟩ []
      rfl rfl (by decide) (by decide) (by decide)).2.2.2 (by decide) (by decide)⟩

/-- The field-entry decision once the class sub-entry is known to hold
a resolved class. -/
lemma carf_eq_klass (s : POracle) (cp : CPool) (idx kidx n sig : Nat) (k : RKlass)
    (hfield : cp.entries.get? idx = some (CPE.fieldE kidx n sig))
    (hk : cp.entries.get? kidx = some (CPE.klassE k)) :
    can_archive_resolved_field s cp idx =
      if !(can_archive_resolved_klass s cp.holder k).1 then
        (false, (can_archive_resolved_klass s cp.holder k).2)
      else
        match find_field k n sig with
        | none => (false, (can_archive_resolved_klass s cp.holder k).2)
        | some fd =>
          if fd.fstatic then (false, (can_archive_resolved_klass s cp.holder k).2)
          else (true, (can_archive_resolved_klass s cp.holder k).2) := by
  unfold can_archive_resolved_field
  rw [hfield]
  show (match cp.entries.get? kidx with
    | some (CPE.klassE k) =>
      let r := can_archive_resolved_klass s cp.holder k
      if !r.1 then (false, r.2)
      else
        match find_field k n sig with
        | none => (false, r.2)
        | some fd => if fd.fstatic then (false, r.2) else (true, r.2)
    | _ => (false, s)) = _
  rw [hk]

/-- The field-entry decision when the class sub-entry is not a resolved
class (not yet resolved). -/
lemma carf_eq_notklass (s : POracle) (cp : CPool) (idx kidx n sig : Nat)
    (hfield : cp.entries.get? idx = some (CPE.fieldE kidx n sig))
    (hk : ∀ k, cp.entries.get? kidx ≠ some (CPE.klassE k)) :
    can_archive_resolved_field s cp idx = (false, s) := by
  unfold can_archive_resolved_field
  rw [hfield]
  show (match cp.entries.get? kidx with
    | some (CPE.klassE k) =>
      let r := can_archive_resolved_klass s cp.holder k
      if !r.1 then (false, r.2)
      else
        match find_field k n sig with
        | none => (false, r.2)
        | some fd => if fd.fstatic then (false, r.2) else (true, r.2)
    | _ => (false, s)) = _
  cases he : cp.entries.get? kidx with
  | none => rfl
  | some e =>
    cases e with
    | klassE k => exact absurd he (hk k)
    | unresolvedE c => rfl
    | fieldE a b c => rfl
    | otherE => rfl

/-- C7: the field entry is archivable only if its class sub-entry is
resolved and itself archivable for the pool holder, and the field is
found by name and signature and is not static; an unfound or static
field is always rejected. -/
theorem C7_resolved_field_requirements :
    ∀ (s : POracle) (cp : CPool) (idx kidx n sig : Nat),
      cp.entries.get? idx = some (CPE.fieldE kidx n sig) →
      ((can_archive_resolved_field s cp idx).1 = true →
        ∃ k, cp.entries.get? kidx = some (CPE.klassE k) ∧
          (can_archive_resolved_klass s cp.holder k).1 = true ∧
          ∃ fd, find_field k n sig = some fd ∧ fd.fstatic = false) ∧
      (∀ k, cp.entries.get? kidx = some (CPE.klassE k) →
        find_field k n sig = none → (can_archive_resolved_field s cp idx).1 = false) ∧
      (∀ k fd, cp.entries.get? kidx = some (CPE.klassE k) →
        find_field k n sig = some fd → fd.fstatic = true →
        (can_archive_resolved_field s cp idx).1 = false) := by
  intro s cp idx kidx n sig hfield
  refine ⟨?_, ?_, ?_⟩
  · intro htrue
    cases hk : cp.entries.get? kidx with
    | none =>
      rw [carf_eq_notklass s cp idx kidx n sig hfield (by intro k2; rw [hk]; simp)] at htrue
      simp at htrue
    | some e =>
      cases e with
      | klassE k =>
        rw [carf_eq_klass s cp idx kidx n sig k hfield hk] at htrue
        refine ⟨k, rfl, ?_⟩
        by_cases hok : (can_archive_resolved_klass s cp.holder k).1 = true
        · refine ⟨hok, ?_⟩
          rw [hok] at htrue
          simp only [Bool.not_true, Bool.false_eq_true, if_false] at htrue
          cases hfd : find_field k n sig with
          | none =>
            rw [hfd] at htrue
            simp at htrue
          | some fd =>
            by_cases hst : fd.fstatic = true
            · rw [hfd] at htrue
              simp [hst] at htrue
            · exact ⟨fd, rfl, by simpa using hst⟩
        · have hok2 : (can_archive_resolved_klass s cp.holder k).1 = false := by
            simpa using hok
          rw [hok2] at htrue
          simp at htrue
      | unresolvedE c =>
        rw [carf_eq_notklass s cp idx kidx n sig hfield (by intro k2; rw [hk]; simp)] at htrue
        simp at htrue
      | fieldE a b c =>
        rw [carf_eq_notklass s cp idx kidx n sig hfield (by intro k2; rw [hk]; simp)] at htrue
        simp at htrue
      | otherE =>
        rw [carf_eq_notklass s cp idx kidx n sig hfield (by intro k2; rw [hk]; simp)] at htrue
        simp at htrue
  · intro k hk hnone
    rw [carf_eq_klass s cp idx kidx n sig k hfield hk]
    by_cases hok : (can_archive_resolved_klass s cp.holder k).1 = true
    · simp [hok, hnone]
    · have hok2 : (can_archive_resolved_klass s cp.holder k).1 = false := by simpa using hok
      simp [hok2]
  · intro k fd hk hfd hst
    rw [carf_eq_klass s cp idx kidx n sig k hfield hk]
    by_cases hok : (can_archive_resolved_klass s cp.holder k).1 = true
    · simp [hok, hfd, hst]
    · have hok2 : (can_archive_resolved_klass s cp.holder k).1 = false := by simpa using hok
      simp [hok2]

/-- Witness for C7: the archivable field entry 0 of the concrete pool
yields a resolved class entry, a passing class check and a non-static
found field. -/
theorem C7_resolved_field_requirements_witness :
    ∃ k, exCPool.entries.get? 1 = some (CPE.klassE k) ∧
      (can_archive_resolved_klass exOracle exCPool.holder k).1 = true ∧
      ∃ fd, find_field k 10 20 = some fd ∧ fd.fstatic = false :=
  (C7_resolved_field_requirements exOracle exCPool 0 1 10 20 rfl).1 (by decide)

/-! # Proofs: constant-pool resolution idempotence -/

lemma mem_put_if_absent (l : List Nat) (k : Nat) : k ∈ put_if_absent l k := by
  by_cases h : k ∈ l
  · simp [put_if_absent, contains_iff_mem, h]
  · simp [put_if_absent, contains_iff_mem, h]

/-- C9: for a linked class, a second dumptime_resolve_constants call
after a completed one finds the class in the per-run processed set and
changes nothing: neither the processed set nor any constant pool. -/
theorem C9_resolve_constants_idempotent (ds : Bool) (st : PrelinkSt) (ik : RCKlass)
    (h : ik.linked = true) :
    dumptime_resolve_constants ds (dumptime_resolve_constants ds st ik) ik =
      dumptime_resolve_constants ds st ik := by
  by_cases hp : ik.kid ∈ st.processed
  · have h1 : dumptime_resolve_constants ds st ik = st := by
      unfold dumptime_resolve_constants
      simp [h, contains_iff_mem, hp]
    rw [h1]
    unfold dumptime_resolve_constants
    simp [h, contains_iff_mem, hp]
  · have h1 : dumptime_resolve_constants ds st ik =
        ⟨put_if_absent st.processed ik.kid, update_pool st.pools ik.kid (resolve_pool ds)⟩ := by
      unfold dumptime_resolve_constants
      simp [h, contains_iff_mem, hp]
    rw [h1]
    unfold dumptime_resolve_constants
    simp [h, contains_iff_mem, mem_put_if_absent]

/-- Witness for C9: a linked class (id 5) with one unresolved string
entry; the second call is checked to be a no-op on the concrete state. -/
theorem C9_resolve_constants_idempotent_witness :
    (⟨5, true⟩ : RCKlass).linked = true ∧
    dumptime_resolve_constants true
        (dumptime_resolve_constants true ⟨[], [(5, [CPTag.stringT false])]⟩ ⟨5, true⟩)
        ⟨5, true⟩ =
      dumptime_resolve_constants true ⟨[], [(5, [CPTag.stringT false])]⟩ ⟨5, true⟩ :=
  ⟨rfl, C9_resolve_constants_idempotent true ⟨[], [(5, [CPTag.stringT false])]⟩ ⟨5, true⟩ rfl⟩

/-! # Proofs: dynamic archive validation -/

lemma check_regions_iff (d : DynHeader) (b : BaseInfo) (n : Nat) :
    ∀ (fuel i : Nat), n - i ≤ fuel →
      (check_regions d b n i = true ↔
        ∀ j, i ≤ j → j < n → d.base_region_crc j = b.region_crc j) := by
  intro fuel
  induction fuel with
  | zero =>
    intro i hfi
    unfold check_regions
    rw [dif_neg (by omega)]
    constructor
    · intro _ j hij hjn
      omega
    · intro _
      rfl
  | succ fuel ih =>
    intro i hfi
    by_cases hin : i < n
    · unfold check_regions
      rw [dif_pos hin]
      by_cases hcrc : d.base_region_crc i = b.region_crc i
      · rw [if_neg (not_not_intro hcrc)]
        rw [ih (i + 1) (by omega)]
        constructor
        · intro hall j hij hjn
          by_cases hji : j = i
          · rw [hji]
            exact hcrc
          · exact hall j (by omega) hjn
        · intro hall j hij hjn
          exact hall j (by omega) hjn
      · rw [if_pos hcrc]
        constructor
        · intro hfalse
          simp at hfalse
        · intro hall
          exact absurd (hall i le_rfl hin) hcrc
    · unfold check_regions
      rw [dif_neg hin]
      constructor
      · intro _ j hij hjn
        omega
      · intro _
        rfl

/-- C3: validate accepts exactly when the recorded base-header checksum
matches the loaded base archive and every region checksum from 0 to
n_regions - 1 matches; a header mismatch or the first region mismatch
yields false with nothing further consulted. -/
theorem C3_validate_checksum_gate (n : Nat) (d : DynHeader) (b : BaseInfo) :
    validate n d b = true ↔
      (d.base_header_crc = b.crc ∧ ∀ i, i < n → d.base_region_crc i = b.region_crc i) := by
  unfold validate
  by_cases hh : d.base_header_crc = b.crc
  · rw [if_neg (not_not_intro hh)]
    rw [check_regions_iff d b n (n - 0) 0 le_rfl]
    constructor
    · intro hall
      exact ⟨hh, fun i hi => hall i (Nat.zero_le i) hi⟩
    · intro hand j _ hj
      exact hand.2 j hj
  · rw [if_pos hh]
    constructor
    · intro hfalse
      simp at hfalse
    · intro hand
      exact absurd hand.1 hh

/-! # Proofs: method sorting phase -/

/-- C8 (counterexample to the claim as stated): an unlinked class that
is not shared and not yet visited still has its method tables sorted,
so the sort is not linked-only. -/
theorem C8_stated_counterexample :
    (sort_methods_effect ⟨false, true, false⟩).sorted = true ∧
    (⟨false, true, false⟩ : SMKlass).linked = false := by decide

/-- C8 (amended): for every class processed in SORT_AND_RELAYOUT (not
in the base archive, mirror still present), the vtable/itable
re-derivation happens exactly when the class was already linked, while
the method-table sort happens unconditionally; an unlinked class defers
table layout to load time. -/
theorem C8_sort_methods_effects (ik : SMKlass) :
    ((sort_methods_effect ik).tables = true ↔
      ik.in_shared = false ∧ ik.mirror_present = true ∧ ik.linked = true) ∧
    ((sort_methods_effect ik).sorted = true ↔
      ik.in_shared = false ∧ ik.mirror_present = true) := by
  obtain ⟨a, b, c⟩ := ik
  cases a <;> cases b <;> cases c <;> simp [sort_methods_effect]

end JdkCds
